import Mathlib

/-
Shallow embedding of the GATNE data-preparation and evaluation pipeline
(src/utils.py): graph construction from typed edge lists, vocabulary and
index assignment, windowed skip-gram pair generation, per-type neighbor
sampling, walk-corpus persistence, and the edge-scoring pipeline.

Conventions of the embedding:
* Python lists become Lean `List`s; Python dicts keyed by strings become
  functions out of `String` (with `Option`/`Finset` codomains as needed).
* Python's stable `list.sort` is modelled by `List.insertionSort`, which
  inserts earlier elements before later ties and is therefore stable.
* numpy/sklearn numeric kernels (dot products, norms, the metric
  computations) are external libraries, not code of this repository; the
  cosine-similarity kernel is abstracted as a parameter `sim` and
  `np.random.choice` as an oracle parameter `choice`, so every theorem
  quantifies over all behaviours of those externals.
* Fallible operations (Python exceptions) return `Option`; `none` models
  an uncaught exception aborting the call.
-/

namespace GATNE

/-! ### GraphBuilder: `get_G_from_edges` (utils.py lines 78-84) -/

/-- One Python statement `edge_dict[k].add(x)` on a `defaultdict(set)`:
the map is updated at key `k` by inserting `x` into the set stored there. -/
def dictAdd (d : String → Finset String) (k x : String) : String → Finset String :=
  fun w => if w = k then insert x (d k) else d w

/-- Embeds `get_G_from_edges(edges)`: fold over the edge list, performing
`edge_dict[u].add(v); edge_dict[v].add(u)` for each edge `(u, v)`.
The initial `defaultdict(set)` maps every key to the empty set. -/
def get_G_from_edges (edges : List (String × String)) : String → Finset String :=
  edges.foldl (fun d e => dictAdd (dictAdd d e.1 e.2) e.2 e.1) (fun _ => ∅)

/-! ### Evaluator: `get_score` and `evaluate` (utils.py lines 253-291)

The embedding fixes the score type to `ℚ` (an exact stand-in for the
real-valued numpy scores; the claims depend only on the linear order).
`sim v1 v2` abstracts the external numpy expression
`np.dot(v1, v2) / (np.linalg.norm(v1) * np.linalg.norm(v2))`.
-/

/-- Embeds `get_score(local_model, node1, node2)`: the Python body looks up both
nodes in the embedding lookup; a `KeyError` on either lookup is caught by the
bare `except`, and the function falls through returning `None`. Otherwise it
returns the cosine similarity of the two vectors, abstracted as `sim`. -/
def get_score (sim : List ℚ → List ℚ → ℚ) (local_model : List (String × List ℚ))
    (node1 node2 : String) : Option ℚ :=
  match local_model.lookup node1, local_model.lookup node2 with
  | some vector1, some vector2 => some (sim vector1 vector2)
  | _, _ => none

/-- The per-edge-list loop of `evaluate`: for each edge, compute
`get_score(model, str(edge[0]), str(edge[1]))` and record the score when it
is not `None` (the labels recorded alongside are constant per loop). -/
def scoresOf (sim : List ℚ → List ℚ → ℚ) (model : List (String × List ℚ))
    (edges : List (String × String)) : List ℚ :=
  edges.filterMap (fun edge => get_score sim model edge.1 edge.2)

/-- Python list indexing `l[-k]` for a natural `k`: `l[-0]` is `l[0]`
(Python negation of zero is zero), `l[-k]` for `1 ≤ k ≤ len(l)` is
`l[len(l) - k]`, and anything else raises `IndexError` (modelled `none`). -/
def pyNegIndex (l : List ℚ) (k : ℕ) : Option ℚ :=
  if k = 0 then l[0]?
  else if k ≤ l.length then l[l.length - k]? else none

/-- Embeds `evaluate(model, true_edges, false_edges)` up to the data handed to the
external sklearn metric calls: returns `(true_list, prediction_list, y_pred)`
where `true_list` is the recorded labels, `prediction_list` the recorded
scores (true edges first, then false edges, as the two loops run), and
`y_pred` the thresholded predictions `1 if score >= threshold else 0` with
`threshold = sorted(prediction_list)[-true_num]`. A `none` result models the
uncaught `IndexError` from that indexing. The final sklearn calls
(`roc_auc_score`, `f1_score`, `precision_recall_curve`, `auc`) are external
library code consuming exactly these three lists. -/
def evaluate (sim : List ℚ → List ℚ → ℚ) (model : List (String × List ℚ))
    (true_edges false_edges : List (String × String)) :
    Option (List ℕ × List ℚ × List ℕ) :=
  let ts := scoresOf sim model true_edges
  let fs := scoresOf sim model false_edges
  let true_list := List.replicate ts.length 1 ++ List.replicate fs.length 0
  let prediction_list := ts ++ fs
  let true_num := ts.length
  let sorted_pred := prediction_list.insertionSort (· ≤ ·)
  match pyNegIndex sorted_pred true_num with
  | none => none
  | some threshold =>
      some (true_list, prediction_list,
        prediction_list.map (fun s => if threshold ≤ s then 1 else 0))

/-- Modelled from the spec: "the `trueNum`-th largest score observed across
both true and false edges combined" — position `k - 1` of the list sorted in
descending order. Used to compare the code's threshold against the spec's
characterization. -/
def kthLargest (l : List ℚ) (k : ℕ) : Option ℚ :=
  (l.insertionSort (fun a b => b ≤ a))[k - 1]?

/-! ### PairGenerator: `generate_pairs` (utils.py lines 168-180)

`vocab` is the node-to-index map (`vocab[word].index` in the source); in the
pipeline every walk token is a key of the vocabulary built from the same
walks, so the lookup is modelled as a total function.
-/

/-- The two inner loops of `generate_pairs` for one `walk` in layer
`layer_id`: for each position `i` and each distance `j` in
`range(1, skip_window + 1)`, append the left pair when `i - j >= 0` and the
right pair when `i + j < len(walk)`, in that order. -/
def pairsForWalk (vocab : String → ℕ) (skip_window : ℕ) (layer_id : ℕ)
    (walk : List String) : List (ℕ × ℕ × ℕ) :=
  (List.range walk.length).flatMap (fun i =>
    (List.range' 1 skip_window).flatMap (fun j =>
      (if j ≤ i then
        [(vocab (walk.getD i ""), vocab (walk.getD (i - j) ""), layer_id)]
       else []) ++
      (if i + j < walk.length then
        [(vocab (walk.getD i ""), vocab (walk.getD (i + j) ""), layer_id)]
       else [])))

/-- Embeds `generate_pairs(all_walks, vocab, window_size, num_workers)`:
`skip_window = window_size // 2`; `enumerate(all_walks)` pairs each layer's
walk list with its index (modelled by indexing `range(len(all_walks))`);
`num_workers` is unused by the loop. -/
def generate_pairs (all_walks : List (List (List String))) (vocab : String → ℕ)
    (window_size : ℕ) : List (ℕ × ℕ × ℕ) :=
  (List.range all_walks.length).flatMap (fun layer_id =>
    (all_walks.getD layer_id []).flatMap (fun walk =>
      pairsForWalk vocab (window_size / 2) layer_id walk))

/-! ### VocabularyBuilder: `generate_vocab` (utils.py lines 15-19, 182-201) -/

/-- The `Vocab` class of utils.py: an occurrence count and a dense index. -/
structure Vocab where
  count : ℕ
  index : ℕ
deriving DecidableEq

/-- All walk tokens in traversal order: layer by layer, walk by walk, token
by token — the order of the triple counting loop of `generate_vocab`. -/
def allTokens (all_walks : List (List (List String))) : List String :=
  all_walks.flatten.flatten

/-- The counting loops of `generate_vocab`: `raw_vocab = defaultdict(int)`;
for each layer, walk and word, `raw_vocab[word] += 1`. -/
def raw_vocab (all_walks : List (List (List String))) : String → ℕ :=
  all_walks.foldl
    (fun acc walks => walks.foldl
      (fun acc walk => walk.foldl
        (fun acc word => fun w => if w = word then acc w + 1 else acc w) acc) acc)
    (fun _ => 0)

/-- Insertion order of the keys of `raw_vocab` (a Python dict preserves first
insertion order): the tokens in first-occurrence order; this is the order in
which `index2word` is populated before sorting. -/
def firstOcc (tokens : List String) : List String :=
  tokens.foldl (fun acc w => if w ∈ acc then acc else acc ++ [w]) []

/-- The final `index2word`: the key list sorted by descending count with
`list.sort(key=..., reverse=True)` — a stable descending sort, modelled by
the stable `insertionSort` with relation `count b ≤ count a`. -/
def index2word (all_walks : List (List (List String))) : List String :=
  (firstOcc (allTokens all_walks)).insertionSort
    (fun a b => raw_vocab all_walks b ≤ raw_vocab all_walks a)

/-- Embeds `generate_vocab(all_walks)` after its final re-indexing loop: each word
seen in the walks maps to its count and its position in the sorted
`index2word` (the loop `for i, word in enumerate(index2word): vocab[word].index = i`);
unseen words are absent from the dict. -/
def generate_vocab (all_walks : List (List (List String))) :
    (String → Option Vocab) × List String :=
  (fun w =>
    if w ∈ firstOcc (allTokens all_walks) then
      some ⟨raw_vocab all_walks w, (index2word all_walks).indexOf w⟩
    else none,
   index2word all_walks)

/-! ### NeighborSampler: `generate_neighbors` (utils.py lines 233-251) -/

/-- One iteration of the accumulation loop for an edge `(x, y)` of the
current type: `neighbors[vocab[x].index][r].append(vocab[y].index)` followed
by `neighbors[vocab[y].index][r].append(vocab[x].index)`. The per-type column
is a function from node index to its ordered candidate list; the two appends
run sequentially, so at key `i` the list grows by `[vocab y]` when
`i = vocab x` and then by `[vocab x]` when `i = vocab y` — for a self-loop
with `vocab x = vocab y = i` both appends hit the same list. -/
def neighborStep (vocab : String → ℕ) (nb : ℕ → List ℕ) (e : String × String) :
    ℕ → List ℕ :=
  fun i => nb i ++ (if i = vocab e.1 then [vocab e.2] else []) ++
    (if i = vocab e.2 then [vocab e.1] else [])

/-- The whole accumulation loop of `generate_neighbors` for one edge type:
fold `neighborStep` over the raw edge list, starting from all-empty lists. -/
def accumulateNeighbors (vocab : String → ℕ) (g : List (String × String)) :
    ℕ → List ℕ :=
  g.foldl (neighborStep vocab) (fun _ => [])

/-- The three-way reconciliation (utils.py lines 244-250) of one
`neighbors[i][r]` cell, with the `np.random.choice` oracle already
specialised to this cell: an empty list becomes `neighbor_samples` copies of
the node's own index; a short list keeps its entries and appends
`neighbor_samples - len` drawn entries; a long list is replaced by
`neighbor_samples` drawn entries; a list of exactly `neighbor_samples`
entries is kept as is. -/
def reconcile (choice : List ℕ → ℕ → List ℕ) (neighbor_samples : ℕ) (i : ℕ)
    (l : List ℕ) : List ℕ :=
  if l.length = 0 then List.replicate neighbor_samples i
  else if l.length < neighbor_samples then
    l ++ choice l (neighbor_samples - l.length)
  else if neighbor_samples < l.length then choice l neighbor_samples
  else l

/-- Embeds `generate_neighbors(network_data, vocab, num_nodes, edge_types,
neighbor_samples)`. `choice i r l k` models `list(np.random.choice(l, size=k))`
at cell (node `i`, type `r`); each cell draws from the stochastic source at
most once, so one oracle function captures one execution. The loops mutate
each `neighbors[i][r]` cell independently of every other cell, so the final
table is the per-cell composition of accumulation and reconciliation. -/
def generate_neighbors (choice : ℕ → ℕ → List ℕ → ℕ → List ℕ)
    (network_data : String → List (String × String)) (vocab : String → ℕ)
    (num_nodes : ℕ) (edge_types : List String) (neighbor_samples : ℕ) :
    List (List (List ℕ)) :=
  (List.range num_nodes).map (fun i =>
    (List.range edge_types.length).map (fun r =>
      reconcile (choice i r) neighbor_samples i
        (accumulateNeighbors vocab (network_data (edge_types.getD r "")) i)))

/-! ### WalkCorpus persistence: `save_walks` / `load_walks`
(utils.py lines 203-220)

The file is modelled as its list of lines (the trailing `\n` written per line
is the separator consumed by the reading loop). Python numeral rendering
`str(n)` and parsing `int(s)` are modelled by standard decimal
rendering/parsing over the character list.
-/

/-- One decimal digit character, `chr(48 + d)`. -/
def digitToChar (d : ℕ) : Char := Char.ofNat (48 + d)

/-- Python `str(n)` for a natural number: big-endian decimal digits,
`"0"` for zero. -/
def natToStr (n : ℕ) : List Char :=
  if n = 0 then ['0'] else (Nat.digits 10 n).reverse.map digitToChar

/-- Python `int(s)` on the fields occurring in walk files: a nonempty
all-digit string parses to its decimal value; anything else raises
`ValueError` (`none`). CPython also accepts signs, underscores and
surrounding whitespace, but the reader only ever applies `int` to a
whitespace-free field, and the corpus writer emits canonical digit strings;
a field it rejects would crash the load either way. -/
def strToNat (cs : List Char) : Option ℕ :=
  if cs ≠ [] ∧ cs.all Char.isDigit then
    some (Nat.ofDigits 10 ((cs.map (fun c => c.toNat - 48)).reverse))
  else none

/-- Python `str.split()` with no arguments: split on whitespace runs,
discarding empty fields. -/
def splitWs (cs : List Char) : List (List Char) :=
  (cs.splitOnP (fun c => c.isWhitespace)).filter (fun t => t ≠ [])

def pySplit (s : String) : List String :=
  (splitWs s.data).map (fun t => String.mk t)

/-- Python `' '.join(fields)` over character lists. -/
def joinSp (ts : List (List Char)) : List Char := List.intercalate [' '] ts

/-- One output line of `save_walks`:
`' '.join([str(layer_id)] + [str(x) for x in walk])` (`str` is the identity
on the string tokens). -/
def renderLine (layer_id : ℕ) (walk : List String) : String :=
  String.mk (joinSp (natToStr layer_id :: walk.map String.data))

/-- Embeds `save_walks(walk_file, all_walks)`: for each layer in enumeration order,
one line per walk in order. -/
def save_walks (all_walks : List (List (List String))) : List String :=
  (List.range all_walks.length).flatMap (fun layer_id =>
    (all_walks.getD layer_id []).map (renderLine layer_id))

/-- One iteration of the `load_walks` line loop: `content = line.strip().split()`;
`layer_id = int(content[0])` (`IndexError` on an empty split and `ValueError`
on a non-integer field abort the load); if `layer_id >= len(all_walks)`,
append one empty layer; then `all_walks[layer_id].append(content[1:])`,
aborting (`IndexError`) when the index is still out of range. -/
def loadLine (st : Option (List (List (List String)))) (line : String) :
    Option (List (List (List String))) :=
  match st with
  | none => none
  | some all_walks =>
      match pySplit line with
      | [] => none
      | c0 :: rest =>
          match strToNat c0.data with
          | none => none
          | some layer_id =>
              let grown :=
                if all_walks.length ≤ layer_id then all_walks ++ [[]] else all_walks
              if layer_id < grown.length then
                some (grown.set layer_id (grown.getD layer_id [] ++ [rest]))
              else none

/-- Embeds `load_walks(walk_file)`: fold the line loop over the file's lines,
starting from the empty layer list. -/
def load_walks (lines : List String) : Option (List (List (List String))) :=
  lines.foldl loadLine (some [])

/-- The lines `save_walks` emits for consecutive layers starting at layer
index `base` — the recursive form of the enumeration, used to reason about
the save/load round trip. -/
def blockLinesFrom (base : ℕ) : List (List (List String)) → List String
  | [] => []
  | walks :: rest => walks.map (renderLine base) ++ blockLinesFrom (base + 1) rest

/-! ### Theorems -/

theorem dictAdd_subset (d : String → Finset String) (k x w : String) :
    d w ⊆ dictAdd d k x w := by
  intro a ha
  by_cases h : w = k
  · subst h; simp only [dictAdd, if_pos rfl]; exact Finset.mem_insert_of_mem ha
  · simp only [dictAdd, if_neg h]; exact ha

theorem dictAdd_mono {d₁ d₂ : String → Finset String} (h : ∀ w, d₁ w ⊆ d₂ w)
    (k x w : String) : dictAdd d₁ k x w ⊆ dictAdd d₂ k x w := by
  by_cases hw : w = k
  · simp only [dictAdd, if_pos hw]
    exact Finset.insert_subset_insert _ (h k)
  · simp only [dictAdd, if_neg hw]
    exact h w

theorem get_G_foldl_mono (edges : List (String × String))
    {d₁ d₂ : String → Finset String} (h : ∀ w, d₁ w ⊆ d₂ w) (w : String) :
    (edges.foldl (fun d e => dictAdd (dictAdd d e.1 e.2) e.2 e.1) d₁) w ⊆
      (edges.foldl (fun d e => dictAdd (dictAdd d e.1 e.2) e.2 e.1) d₂) w := by
  induction edges generalizing d₁ d₂ with
  | nil => exact h w
  | cons e es ih =>
      simp only [List.foldl_cons]
      exact ih (fun w => dictAdd_mono (dictAdd_mono h e.1 e.2) e.2 e.1 w)

theorem get_G_foldl_subset (edges : List (String × String))
    (d : String → Finset String) (w : String) :
    d w ⊆ (edges.foldl (fun d e => dictAdd (dictAdd d e.1 e.2) e.2 e.1) d) w := by
  induction edges generalizing d with
  | nil => exact fun a ha => ha
  | cons e es ih =>
      intro a ha
      simp only [List.foldl_cons]
      exact ih _ (dictAdd_subset _ _ _ _ (dictAdd_subset _ _ _ _ ha))

theorem get_G_mem_of_mem (edges : List (String × String)) (a b : String)
    (h : (a, b) ∈ edges) :
    b ∈ get_G_from_edges edges a ∧ a ∈ get_G_from_edges edges b := by
  induction edges with
  | nil => cases h
  | cons e es ih =>
      rcases List.mem_cons.mp h with he | hes
      · subst he
        unfold get_G_from_edges
        simp only [List.foldl_cons]
        refine ⟨get_G_foldl_subset es _ _ ?_, get_G_foldl_subset es _ _ ?_⟩
        · by_cases hab : b = a
          · subst hab
            simp [dictAdd]
          · have hb : b ∈ dictAdd (fun _ => (∅ : Finset String)) a b a := by
              simp [dictAdd]
            exact dictAdd_subset _ _ _ _ hb
        · simp [dictAdd]
      · have hb := ih hes
        unfold get_G_from_edges at hb ⊢
        simp only [List.foldl_cons]
        have hmono : ∀ w, (fun _ => (∅ : Finset String)) w ⊆
            dictAdd (dictAdd (fun _ => (∅ : Finset String)) e.1 e.2) e.2 e.1 w :=
          fun w a ha => by cases ha
        exact ⟨get_G_foldl_mono es hmono a hb.1, get_G_foldl_mono es hmono b hb.2⟩

/-- Claim C9: for every input pair `(u,v)` in the edge list, `v` is a member of
`adjacency[u]` and `u` a member of `adjacency[v]`; appending a duplicate of an
already-present pair leaves the adjacency unchanged (membership in a set, not
a count); a self-loop pair `(w,w)` records `w` as its own neighbor. -/
theorem claim_C9_graph_symmetry (edges : List (String × String)) (u v : String)
    (h : (u, v) ∈ edges) :
    v ∈ get_G_from_edges edges u ∧ u ∈ get_G_from_edges edges v ∧
      get_G_from_edges (edges ++ [(u, v)]) = get_G_from_edges edges ∧
      (∀ w : String, (w, w) ∈ edges → w ∈ get_G_from_edges edges w) := by
  obtain ⟨h1, h2⟩ := get_G_mem_of_mem edges u v h
  refine ⟨h1, h2, ?_, fun w hw => (get_G_mem_of_mem edges w w hw).1⟩
  unfold get_G_from_edges
  rw [List.foldl_append]
  simp only [List.foldl_cons, List.foldl_nil]
  set G := List.foldl (fun d e => dictAdd (dictAdd d e.1 e.2) e.2 e.1)
    (fun _ => (∅ : Finset String)) edges with hG
  have step1 : dictAdd G u v = G := by
    funext w
    by_cases hw : w = u
    · subst hw
      simp only [dictAdd, if_pos rfl]
      exact Finset.insert_eq_self.mpr h1
    · simp only [dictAdd, if_neg hw]
  rw [step1]
  funext w
  by_cases hw : w = v
  · subst hw
    simp only [dictAdd, if_pos rfl]
    exact Finset.insert_eq_self.mpr h2
  · simp only [dictAdd, if_neg hw]

/-- Concrete witness for claim C9: the edge list `[(a,b), (c,c), (a,b)]`
contains `(a,b)`, and the conclusions hold for it. -/
theorem claim_C9_witness :
    ("a", "b") ∈ [("a", "b"), ("c", "c"), ("a", "b")] ∧
      ("b" ∈ get_G_from_edges [("a", "b"), ("c", "c"), ("a", "b")] "a" ∧
        "a" ∈ get_G_from_edges [("a", "b"), ("c", "c"), ("a", "b")] "b" ∧
        get_G_from_edges ([("a", "b"), ("c", "c"), ("a", "b")] ++ [("a", "b")]) =
          get_G_from_edges [("a", "b"), ("c", "c"), ("a", "b")] ∧
        (∀ w : String, (w, w) ∈ [("a", "b"), ("c", "c"), ("a", "b")] →
          w ∈ get_G_from_edges [("a", "b"), ("c", "c"), ("a", "b")] w)) :=
  ⟨by decide, claim_C9_graph_symmetry _ "a" "b" (by decide)⟩

theorem filterMap_filter_isSome {α β : Type} (f : α → Option β) (l : List α) :
    (l.filter (fun x => (f x).isSome)).filterMap f = l.filterMap f := by
  induction l with
  | nil => rfl
  | cons a l ih =>
      by_cases h : (f a).isSome
      · obtain ⟨b, hb⟩ := Option.isSome_iff_exists.mp h
        simp [List.filter_cons, h, List.filterMap_cons, hb, ih]
      · simp only [Option.not_isSome_iff_eq_none] at h
        simp [List.filter_cons, h, List.filterMap_cons, ih]

theorem length_filterMap_eq_countP {α β : Type} (f : α → Option β) (l : List α) :
    (l.filterMap f).length = l.countP (fun x => (f x).isSome) := by
  induction l with
  | nil => rfl
  | cons a l ih =>
      by_cases h : (f a).isSome
      · obtain ⟨b, hb⟩ := Option.isSome_iff_exists.mp h
        simp [List.filterMap_cons, hb, List.countP_cons, h, ih]
      · simp only [Option.not_isSome_iff_eq_none] at h
        simp [List.filterMap_cons, h, List.countP_cons, ih]

theorem insertionSort_desc_eq_reverse (l : List ℚ) :
    l.insertionSort (fun a b => b ≤ a) = (l.insertionSort (· ≤ ·)).reverse := by
  haveI hTot : IsTotal ℚ (fun a b : ℚ => b ≤ a) := ⟨fun a b => le_total b a⟩
  haveI hTrans : IsTrans ℚ (fun a b : ℚ => b ≤ a) := ⟨fun a b c h1 h2 => le_trans h2 h1⟩
  haveI hAnti : IsAntisymm ℚ (fun a b : ℚ => b ≤ a) := ⟨fun a b h1 h2 => le_antisymm h2 h1⟩
  apply List.eq_of_perm_of_sorted (r := fun a b : ℚ => b ≤ a)
  · exact (List.perm_insertionSort _ l).trans
      ((List.perm_insertionSort _ l).symm.trans (List.reverse_perm _).symm)
  · exact List.sorted_insertionSort _ l
  · have hs : (l.insertionSort (· ≤ ·)).Sorted (· ≤ ·) := List.sorted_insertionSort _ l
    unfold List.Sorted at hs ⊢
    rw [List.pairwise_reverse]
    exact hs

/-- Claim C2: under the precondition `1 ≤ trueNum ≤ total`, the threshold the
code computes (`sorted(prediction_list)[-true_num]`) equals the `trueNum`-th
largest recorded score, `evaluate` succeeds returning the recorded labels,
the recorded scores, and predictions, and an edge is predicted positive
exactly when its score is `≥` the threshold (ties predicted positive). -/
theorem claim_C2_rank_threshold (sim : List ℚ → List ℚ → ℚ)
    (model : List (String × List ℚ)) (te fe : List (String × String))
    (h1 : 1 ≤ (scoresOf sim model te).length)
    (h2 : (scoresOf sim model te).length ≤
      (scoresOf sim model te ++ scoresOf sim model fe).length) :
    ∃ threshold : ℚ,
      kthLargest (scoresOf sim model te ++ scoresOf sim model fe)
          (scoresOf sim model te).length = some threshold ∧
      evaluate sim model te fe = some
        (List.replicate (scoresOf sim model te).length 1 ++
           List.replicate (scoresOf sim model fe).length 0,
         scoresOf sim model te ++ scoresOf sim model fe,
         (scoresOf sim model te ++ scoresOf sim model fe).map
           (fun s => if threshold ≤ s then 1 else 0)) ∧
      ∀ i : ℕ, i < (scoresOf sim model te ++ scoresOf sim model fe).length →
        (((scoresOf sim model te ++ scoresOf sim model fe).map
            (fun s => if threshold ≤ s then 1 else 0)).getD i 0 = 1 ↔
          threshold ≤ (scoresOf sim model te ++ scoresOf sim model fe).getD i 0) := by
  set ts := scoresOf sim model te with hts
  set fs := scoresOf sim model fe with hfs
  set preds := ts ++ fs with hpreds
  set asc := preds.insertionSort (· ≤ ·) with hasc
  have hlen : asc.length = preds.length := List.length_insertionSort _ _
  have htn : ts.length ≤ preds.length := h2
  have hidx : asc.length - ts.length < asc.length := by
    rw [hlen]; omega
  have hpy : pyNegIndex asc ts.length
      = some (asc.get ⟨asc.length - ts.length, hidx⟩) := by
    unfold pyNegIndex
    rw [if_neg (by omega), if_pos (by omega), List.get_eq_getElem]
    exact List.getElem?_eq_getElem hidx
  refine ⟨asc.get ⟨asc.length - ts.length, hidx⟩, ?_, ?_, ?_⟩
  · unfold kthLargest
    rw [insertionSort_desc_eq_reverse]
    rw [List.getElem?_reverse (by omega : ts.length - 1 < asc.length)]
    rw [show asc.length - 1 - (ts.length - 1) = asc.length - ts.length by omega]
    rw [List.get_eq_getElem]
    exact List.getElem?_eq_getElem hidx
  · show evaluate sim model te fe = _
    unfold evaluate
    dsimp only
    rw [← hpreds, ← hasc, hpy]
  · intro i hi
    rw [List.getD_eq_getElem _ _ (by simpa using hi), List.getD_eq_getElem _ _ hi,
      List.getElem_map]
    constructor
    · intro h
      by_contra hc
      rw [if_neg hc] at h
      cases h
    · intro h
      rw [if_pos h]

/-- Claim C1 (code-bug exhibit): `evaluate` has no guard for a degenerate
`trueNum`. With zero scoreable true edges and one scoreable false edge it
silently succeeds, taking `sorted_pred[-0] = sorted_pred[0]` (the smallest
recorded score) as threshold and predicting the false edge positive; with no
scoreable edges at all it aborts with a bare `IndexError` (`none`), not a
descriptive error. -/
theorem claim_C1_threshold_unguarded :
    evaluate (fun _ _ => 0) [("x", [1]), ("y", [1])] [("a", "b")] [("x", "y")] =
        some ([0], [(0 : ℚ)], [1]) ∧
      evaluate (fun _ _ => 0) [] [("a", "b")] [] = none := by
  constructor <;> rfl

/-- Claim C8: if either node of an edge is missing from the embedding lookup,
`get_score` returns `none` (absent) rather than raising; `evaluate` silently
excludes exactly those edges — the recorded scores, the whole evaluation
output, and the `trueNum` count are unchanged when unscoreable edges are
dropped from the inputs, and `trueNum` counts exactly the scoreable true
edges. -/
theorem claim_C8_absent_excluded (sim : List ℚ → List ℚ → ℚ)
    (model : List (String × List ℚ)) (n1 n2 : String)
    (h : model.lookup n1 = none ∨ model.lookup n2 = none) :
    get_score sim model n1 n2 = none ∧
    (∀ edges, scoresOf sim model edges =
        scoresOf sim model
          (edges.filter (fun e => (get_score sim model e.1 e.2).isSome))) ∧
    (∀ te fe, evaluate sim model te fe =
        evaluate sim model
          (te.filter (fun e => (get_score sim model e.1 e.2).isSome))
          (fe.filter (fun e => (get_score sim model e.1 e.2).isSome))) ∧
    (∀ edges, (scoresOf sim model edges).length =
        edges.countP (fun e => (get_score sim model e.1 e.2).isSome)) := by
  have hb : ∀ edges, scoresOf sim model edges =
      scoresOf sim model
        (edges.filter (fun e => (get_score sim model e.1 e.2).isSome)) := by
    intro edges
    unfold scoresOf
    exact (filterMap_filter_isSome _ edges).symm
  refine ⟨?_, hb, ?_, ?_⟩
  · rcases h with h | h
    · unfold get_score
      rw [h]
    · unfold get_score
      rw [h]
      cases model.lookup n1 <;> rfl
  · intro te fe
    unfold evaluate
    rw [← hb te, ← hb fe]
  · intro edges
    unfold scoresOf
    exact length_filterMap_eq_countP _ edges

/-- Concrete witness for claim C2: one scoreable true edge and one scoreable
false edge satisfy the precondition, and the conclusion follows. -/
theorem claim_C2_witness :
    (1 ≤ (scoresOf (fun _ _ => 0) [("a", [1]), ("b", [1])] [("a", "b")]).length ∧
      (scoresOf (fun _ _ => 0) [("a", [1]), ("b", [1])] [("a", "b")]).length ≤
        (scoresOf (fun _ _ => 0) [("a", [1]), ("b", [1])] [("a", "b")] ++
          scoresOf (fun _ _ => 0) [("a", [1]), ("b", [1])] [("a", "a")]).length) ∧
    (∃ threshold : ℚ,
      kthLargest (scoresOf (fun _ _ => 0) [("a", [1]), ("b", [1])] [("a", "b")] ++
            scoresOf (fun _ _ => 0) [("a", [1]), ("b", [1])] [("a", "a")])
          (scoresOf (fun _ _ => 0) [("a", [1]), ("b", [1])] [("a", "b")]).length
          = some threshold ∧
      evaluate (fun _ _ => 0) [("a", [1]), ("b", [1])] [("a", "b")] [("a", "a")] = some
        (List.replicate
            (scoresOf (fun _ _ => 0) [("a", [1]), ("b", [1])] [("a", "b")]).length 1 ++
           List.replicate
            (scoresOf (fun _ _ => 0) [("a", [1]), ("b", [1])] [("a", "a")]).length 0,
         scoresOf (fun _ _ => 0) [("a", [1]), ("b", [1])] [("a", "b")] ++
           scoresOf (fun _ _ => 0) [("a", [1]), ("b", [1])] [("a", "a")],
         (scoresOf (fun _ _ => 0) [("a", [1]), ("b", [1])] [("a", "b")] ++
            scoresOf (fun _ _ => 0) [("a", [1]), ("b", [1])] [("a", "a")]).map
           (fun s => if threshold ≤ s then 1 else 0)) ∧
      ∀ i : ℕ, i < (scoresOf (fun _ _ => 0) [("a", [1]), ("b", [1])] [("a", "b")] ++
          scoresOf (fun _ _ => 0) [("a", [1]), ("b", [1])] [("a", "a")]).length →
        (((scoresOf (fun _ _ => 0) [("a", [1]), ("b", [1])] [("a", "b")] ++
            scoresOf (fun _ _ => 0) [("a", [1]), ("b", [1])] [("a", "a")]).map
            (fun s => if threshold ≤ s then 1 else 0)).getD i 0 = 1 ↔
          threshold ≤ (scoresOf (fun _ _ => 0) [("a", [1]), ("b", [1])] [("a", "b")] ++
            scoresOf (fun _ _ => 0) [("a", [1]), ("b", [1])] [("a", "a")]).getD i 0)) :=
  ⟨⟨by decide, by decide⟩,
    claim_C2_rank_threshold (fun _ _ => 0) [("a", [1]), ("b", [1])]
      [("a", "b")] [("a", "a")] (by decide) (by decide)⟩

/-- Concrete witness for claim C8: node `"b"` is missing from the lookup
`[("a", [1])]`, and `get_score` reports absent for the edge `("b", "a")`. -/
theorem claim_C8_witness :
    (List.lookup "b" [("a", [(1 : ℚ)])] = none ∨
      List.lookup "a" [("a", [(1 : ℚ)])] = none) ∧
    get_score (fun _ _ => 0) [("a", [(1 : ℚ)])] "b" "a" = none :=
  ⟨Or.inl (by decide),
    (claim_C8_absent_excluded (fun _ _ => 0) [("a", [(1 : ℚ)])] "b" "a"
      (Or.inl (by decide))).1⟩

theorem mem_ite_singleton {α : Type} (c : Prop) [Decidable c] (x t : α) :
    t ∈ (if c then [x] else []) ↔ c ∧ t = x := by
  split <;> simp_all

/-- Claim C6: `generate_pairs` emits exactly, for each layer, each walk, each
position `i`, and each distance `j ∈ [1, windowSize // 2]`, the in-bounds
left/right context triples, and no other triples; with `windowSize = 2` on
walk `[a,b,c]` in layer 0 it yields exactly the four pairs
`(a,b,0), (b,a,0), (b,c,0), (c,b,0)`. -/
theorem claim_C6_window_pairs :
    (∀ (aw : List (List (List String))) (vocab : String → ℕ) (ws : ℕ)
        (t : ℕ × ℕ × ℕ),
      t ∈ generate_pairs aw vocab ws ↔
        ∃ layer_id, layer_id < aw.length ∧
        ∃ walk, walk ∈ aw.getD layer_id [] ∧
        ∃ i, i < walk.length ∧
        ∃ j, 1 ≤ j ∧ j ≤ ws / 2 ∧
          ((j ≤ i ∧
              t = (vocab (walk.getD i ""), vocab (walk.getD (i - j) ""), layer_id)) ∨
           (i + j < walk.length ∧
              t = (vocab (walk.getD i ""), vocab (walk.getD (i + j) ""), layer_id)))) ∧
    (∀ vv : String → ℕ, generate_pairs [[["a", "b", "c"]]] vv 2 =
      [(vv "a", vv "b", 0), (vv "b", vv "a", 0), (vv "b", vv "c", 0),
        (vv "c", vv "b", 0)]) := by
  constructor
  · intro aw vocab ws t
    simp only [generate_pairs, pairsForWalk, List.mem_flatMap, List.mem_range,
      List.mem_range'_1, List.mem_append, mem_ite_singleton]
    constructor
    · rintro ⟨l, hl, w, hw, i, hi, j, ⟨hj1, hj2⟩, hc⟩
      exact ⟨l, hl, w, hw, i, hi, j, hj1, by omega,
        by rcases hc with ⟨h, ht⟩ | ⟨h, ht⟩; exacts [Or.inl ⟨h, ht⟩, Or.inr ⟨h, ht⟩]⟩
    · rintro ⟨l, hl, w, hw, i, hi, j, hj1, hj2, hc⟩
      exact ⟨l, hl, w, hw, i, hi, j, ⟨hj1, by omega⟩,
        by rcases hc with ⟨h, ht⟩ | ⟨h, ht⟩; exacts [Or.inl ⟨h, ht⟩, Or.inr ⟨h, ht⟩]⟩
  · intro vv
    rfl

theorem count_foldl_walk (walk : List String) (acc : String → ℕ) (w : String) :
    (walk.foldl (fun acc word => fun x => if x = word then acc x + 1 else acc x) acc) w
      = acc w + walk.count w := by
  induction walk generalizing acc with
  | nil => simp
  | cons word rest ih =>
      rw [List.foldl_cons, ih, List.count_cons]
      by_cases h : w = word
      · subst h
        simp
        omega
      · simp [h, Ne.symm h]

theorem count_foldl_walks (walks : List (List String)) (acc : String → ℕ) (w : String) :
    (walks.foldl
      (fun acc walk => walk.foldl
        (fun acc word => fun x => if x = word then acc x + 1 else acc x) acc) acc) w
      = acc w + walks.flatten.count w := by
  induction walks generalizing acc with
  | nil => simp
  | cons walk rest ih =>
      rw [List.foldl_cons, ih, count_foldl_walk, List.flatten_cons, List.count_append]
      omega

theorem count_foldl_layers (aw : List (List (List String))) :
    ∀ (acc : String → ℕ) (w : String),
      (aw.foldl
        (fun acc walks => walks.foldl
          (fun acc walk => walk.foldl
            (fun acc word => fun x => if x = word then acc x + 1 else acc x) acc) acc)
        acc) w
      = acc w + aw.flatten.flatten.count w := by
  induction aw with
  | nil => simp
  | cons walks rest ih =>
      intro acc w
      rw [List.foldl_cons, ih, count_foldl_walks, List.flatten_cons,
        List.flatten_append, List.count_append]
      omega

theorem raw_vocab_eq_count (aw : List (List (List String))) (w : String) :
    raw_vocab aw w = (allTokens aw).count w := by
  unfold raw_vocab allTokens
  rw [count_foldl_layers]
  omega

theorem mem_firstOcc_foldl (l : List String) :
    ∀ (acc : List String) (w : String),
      w ∈ l.foldl (fun acc x => if x ∈ acc then acc else acc ++ [x]) acc ↔
        w ∈ acc ∨ w ∈ l := by
  induction l with
  | nil => simp
  | cons x rest ih =>
      intro acc w
      rw [List.foldl_cons]
      by_cases hx : x ∈ acc
      · rw [if_pos hx, ih]
        constructor
        · rintro (h | h)
          · exact Or.inl h
          · exact Or.inr (List.mem_cons_of_mem _ h)
        · rintro (h | h)
          · exact Or.inl h
          · rcases List.mem_cons.mp h with rfl | h
            · exact Or.inl hx
            · exact Or.inr h
      · rw [if_neg hx, ih]
        simp only [List.mem_append, List.mem_singleton, List.mem_cons]
        tauto

theorem nodup_firstOcc_foldl (l : List String) :
    ∀ acc : List String, acc.Nodup →
      (l.foldl (fun acc x => if x ∈ acc then acc else acc ++ [x]) acc).Nodup := by
  induction l with
  | nil => exact fun acc h => h
  | cons x rest ih =>
      intro acc hacc
      rw [List.foldl_cons]
      by_cases hx : x ∈ acc
      · rw [if_pos hx]
        exact ih acc hacc
      · rw [if_neg hx]
        refine ih _ ?_
        simp [List.nodup_append, hacc, hx]

theorem mem_firstOcc (l : List String) (w : String) :
    w ∈ firstOcc l ↔ w ∈ l := by
  unfold firstOcc
  rw [mem_firstOcc_foldl]
  simp

theorem nodup_firstOcc (l : List String) : (firstOcc l).Nodup :=
  nodup_firstOcc_foldl l [] List.nodup_nil

theorem index2word_nodup (aw : List (List (List String))) :
    (index2word aw).Nodup :=
  ((List.perm_insertionSort _ _).nodup_iff).mpr (nodup_firstOcc _)

theorem mem_index2word (aw : List (List (List String))) (w : String) :
    w ∈ index2word aw ↔ w ∈ allTokens aw :=
  ((List.perm_insertionSort _ _).mem_iff).trans (mem_firstOcc _ _)

theorem index2word_sorted (aw : List (List (List String))) :
    (index2word aw).Sorted
      (fun a b => raw_vocab aw b ≤ raw_vocab aw a) := by
  haveI : IsTotal String (fun a b => raw_vocab aw b ≤ raw_vocab aw a) :=
    ⟨fun a b => le_total _ _⟩
  haveI : IsTrans String (fun a b => raw_vocab aw b ≤ raw_vocab aw a) :=
    ⟨fun a b c h1 h2 => le_trans h2 h1⟩
  exact List.sorted_insertionSort _ _

/-- Claim C4: `generate_vocab` counts each token's total occurrences across
every walk in every layer; `index2word` enumerates the distinct tokens with
no duplicates; every seen token gets the entry `(count, position in
index2word)` with the position in range; the index assignment and
`index2word` are mutually inverse (hence the indices are a bijection onto
`[0, |V|)`); and a strictly larger count forces a strictly smaller index. -/
theorem claim_C4_vocab_indexing (aw : List (List (List String))) :
    (∀ w, raw_vocab aw w = (allTokens aw).count w) ∧
    (index2word aw).Nodup ∧
    (∀ w, w ∈ index2word aw ↔ w ∈ allTokens aw) ∧
    (∀ w, w ∈ allTokens aw →
      (generate_vocab aw).1 w =
        some ⟨(allTokens aw).count w, (index2word aw).indexOf w⟩ ∧
      (index2word aw).indexOf w < (index2word aw).length ∧
      (index2word aw).getD ((index2word aw).indexOf w) "" = w) ∧
    (∀ i, i < (index2word aw).length →
      (index2word aw).indexOf ((index2word aw).getD i "") = i) ∧
    (∀ u v, u ∈ allTokens aw → v ∈ allTokens aw →
      (allTokens aw).count v < (allTokens aw).count u →
      (index2word aw).indexOf u < (index2word aw).indexOf v) := by
  refine ⟨raw_vocab_eq_count aw, index2word_nodup aw, mem_index2word aw, ?_, ?_, ?_⟩
  · intro w hw
    have hmem : w ∈ index2word aw := (mem_index2word aw w).mpr hw
    have hidx : (index2word aw).indexOf w < (index2word aw).length :=
      List.indexOf_lt_length.mpr hmem
    refine ⟨?_, hidx, ?_⟩
    · unfold generate_vocab
      dsimp only
      rw [if_pos ((mem_firstOcc _ _).mpr hw), raw_vocab_eq_count]
    · rw [List.getD_eq_getElem _ _ hidx]
      exact List.getElem_indexOf hidx
  · intro i hi
    rw [List.getD_eq_getElem _ _ hi]
    exact List.indexOf_getElem (index2word_nodup aw) i hi
  · intro u v hu hv hcnt
    have hu2 : u ∈ index2word aw := (mem_index2word aw u).mpr hu
    have hv2 : v ∈ index2word aw := (mem_index2word aw v).mpr hv
    have hiu : (index2word aw).indexOf u < (index2word aw).length :=
      List.indexOf_lt_length.mpr hu2
    have hiv : (index2word aw).indexOf v < (index2word aw).length :=
      List.indexOf_lt_length.mpr hv2
    rcases lt_trichotomy ((index2word aw).indexOf u) ((index2word aw).indexOf v)
      with h | h | h
    · exact h
    · exfalso
      have : u = v := (List.indexOf_inj hu2 hv2).mp h
      rw [this] at hcnt
      exact lt_irrefl _ hcnt
    · exfalso
      have hrel := (index2word_sorted aw).rel_get_of_lt
        (a := ⟨(index2word aw).indexOf v, hiv⟩)
        (b := ⟨(index2word aw).indexOf u, hiu⟩) h
      rw [List.get_eq_getElem, List.get_eq_getElem,
        List.getElem_indexOf hiu, List.getElem_indexOf hiv,
        raw_vocab_eq_count, raw_vocab_eq_count] at hrel
      omega

/-- Concrete witness for claim C4: for walks `[[a,b,a],[b,c]]` the counts are
`a:2, b:2, c:1`, and `a` (count 2) receives a smaller index than `c`
(count 1). -/
theorem claim_C4_witness :
    ("a" ∈ allTokens [[["a", "b", "a"], ["b", "c"]]] ∧
      "c" ∈ allTokens [[["a", "b", "a"], ["b", "c"]]] ∧
      (allTokens [[["a", "b", "a"], ["b", "c"]]]).count "c" <
        (allTokens [[["a", "b", "a"], ["b", "c"]]]).count "a") ∧
    (index2word [[["a", "b", "a"], ["b", "c"]]]).indexOf "a" <
      (index2word [[["a", "b", "a"], ["b", "c"]]]).indexOf "c" :=
  ⟨⟨by decide, by decide, by decide⟩,
    (claim_C4_vocab_indexing [[["a", "b", "a"], ["b", "c"]]]).2.2.2.2.2 "a" "c"
      (by decide) (by decide) (by decide)⟩

theorem count_ite_singleton (c : Prop) [Decidable c] (x j : ℕ) :
    ((if c then [x] else []) : List ℕ).count j = if c ∧ j = x then 1 else 0 := by
  by_cases hc : c <;> by_cases hj : j = x <;> simp [hc, hj]

theorem length_ite_singleton (c : Prop) [Decidable c] (x : ℕ) :
    ((if c then [x] else []) : List ℕ).length = if c then 1 else 0 := by
  by_cases hc : c <;> simp [hc]

theorem neighbors_foldl_count (vocab : String → ℕ) (g : List (String × String)) :
    ∀ (nb : ℕ → List ℕ) (i j : ℕ),
      ((g.foldl (neighborStep vocab) nb) i).count j
        = (nb i).count j
          + g.countP (fun e => i == vocab e.1 && j == vocab e.2)
          + g.countP (fun e => i == vocab e.2 && j == vocab e.1) := by
  induction g with
  | nil => intro nb i j; simp
  | cons e g ih =>
      intro nb i j
      rw [List.foldl_cons, ih, List.countP_cons, List.countP_cons]
      simp only [neighborStep, List.count_append, count_ite_singleton,
        Bool.and_eq_true, beq_iff_eq]
      split_ifs <;> omega

theorem neighbors_foldl_length (vocab : String → ℕ) (g : List (String × String)) :
    ∀ (nb : ℕ → List ℕ) (i : ℕ),
      ((g.foldl (neighborStep vocab) nb) i).length
        = (nb i).length + g.countP (fun e => i == vocab e.1)
          + g.countP (fun e => i == vocab e.2) := by
  induction g with
  | nil => intro nb i; simp
  | cons e g ih =>
      intro nb i
      rw [List.foldl_cons, ih, List.countP_cons, List.countP_cons]
      simp only [neighborStep, List.length_append, length_ite_singleton, beq_iff_eq]
      split_ifs <;> omega

theorem accumulateNeighbors_count (vocab : String → ℕ) (g : List (String × String))
    (i j : ℕ) :
    (accumulateNeighbors vocab g i).count j
      = g.countP (fun e => i == vocab e.1 && j == vocab e.2)
        + g.countP (fun e => i == vocab e.2 && j == vocab e.1) := by
  unfold accumulateNeighbors
  rw [neighbors_foldl_count]
  simp

theorem accumulateNeighbors_length (vocab : String → ℕ) (g : List (String × String))
    (i : ℕ) :
    (accumulateNeighbors vocab g i).length
      = g.countP (fun e => i == vocab e.1) + g.countP (fun e => i == vocab e.2) := by
  unfold accumulateNeighbors
  rw [neighbors_foldl_length]
  simp

theorem getD_map_range {β : Type} (f : ℕ → β) (d : β) (n i : ℕ) (h : i < n) :
    ((List.range n).map f).getD i d = f i := by
  rw [List.getD_eq_getElem _ _ (by simpa using h), List.getElem_map, List.getElem_range]

theorem generate_neighbors_cell (choice : ℕ → ℕ → List ℕ → ℕ → List ℕ)
    (network_data : String → List (String × String)) (vocab : String → ℕ)
    (num_nodes : ℕ) (edge_types : List String) (neighbor_samples : ℕ)
    {i r : ℕ} (hi : i < num_nodes) (hr : r < edge_types.length) :
    ((generate_neighbors choice network_data vocab num_nodes edge_types
        neighbor_samples).getD i []).getD r []
      = reconcile (choice i r) neighbor_samples i
          (accumulateNeighbors vocab (network_data (edge_types.getD r "")) i) := by
  unfold generate_neighbors
  rw [getD_map_range _ _ _ _ hi, getD_map_range _ _ _ _ hr]

/-- Claim C3: every `neighbors[i][r]` cell has exactly `neighborSamples`
entries; candidates accumulate one per raw edge occurrence (duplicates
counted, via the occurrence-count identity); an empty candidate list yields
`neighborSamples` copies of the node's own index; a short list is kept in
full and extended only with elements of the pre-extension list; a list of
exactly `neighborSamples` entries is kept verbatim; a longer list is
replaced by `neighborSamples` entries drawn from it. -/
theorem claim_C3_neighbor_table (choice : ℕ → ℕ → List ℕ → ℕ → List ℕ)
    (network_data : String → List (String × String)) (vocab : String → ℕ)
    (num_nodes : ℕ) (edge_types : List String) (neighbor_samples : ℕ)
    (hns : 1 ≤ neighbor_samples)
    (hchoice : ∀ (a b : ℕ) (l : List ℕ) (k : ℕ), l ≠ [] →
      (choice a b l k).length = k ∧ ∀ x ∈ choice a b l k, x ∈ l)
    (_hvocab : ∀ t ∈ edge_types, ∀ e ∈ network_data t,
      vocab e.1 < num_nodes ∧ vocab e.2 < num_nodes)
    (i r : ℕ) (hi : i < num_nodes) (hr : r < edge_types.length) :
    (∀ j, (accumulateNeighbors vocab (network_data (edge_types.getD r "")) i).count j
        = (network_data (edge_types.getD r "")).countP
            (fun e => i == vocab e.1 && j == vocab e.2)
          + (network_data (edge_types.getD r "")).countP
            (fun e => i == vocab e.2 && j == vocab e.1)) ∧
    (((generate_neighbors choice network_data vocab num_nodes edge_types
        neighbor_samples).getD i []).getD r []).length = neighbor_samples ∧
    (accumulateNeighbors vocab (network_data (edge_types.getD r "")) i = [] →
      ((generate_neighbors choice network_data vocab num_nodes edge_types
          neighbor_samples).getD i []).getD r []
        = List.replicate neighbor_samples i) ∧
    (accumulateNeighbors vocab (network_data (edge_types.getD r "")) i ≠ [] →
      (accumulateNeighbors vocab (network_data (edge_types.getD r "")) i).length
          < neighbor_samples →
      ∃ ext, ((generate_neighbors choice network_data vocab num_nodes edge_types
            neighbor_samples).getD i []).getD r []
          = accumulateNeighbors vocab (network_data (edge_types.getD r "")) i ++ ext ∧
        ∀ x ∈ ext, x ∈ accumulateNeighbors vocab (network_data (edge_types.getD r "")) i) ∧
    ((accumulateNeighbors vocab (network_data (edge_types.getD r "")) i).length
        = neighbor_samples →
      ((generate_neighbors choice network_data vocab num_nodes edge_types
          neighbor_samples).getD i []).getD r []
        = accumulateNeighbors vocab (network_data (edge_types.getD r "")) i) ∧
    (neighbor_samples
        < (accumulateNeighbors vocab (network_data (edge_types.getD r "")) i).length →
      ∀ x ∈ ((generate_neighbors choice network_data vocab num_nodes edge_types
          neighbor_samples).getD i []).getD r [],
        x ∈ accumulateNeighbors vocab (network_data (edge_types.getD r "")) i) := by
  have hcell := generate_neighbors_cell choice network_data vocab num_nodes edge_types
    neighbor_samples hi hr
  set acc := accumulateNeighbors vocab (network_data (edge_types.getD r "")) i with hacc
  refine ⟨fun j => accumulateNeighbors_count _ _ _ _, ?_, ?_, ?_, ?_, ?_⟩
  · rw [hcell]
    unfold reconcile
    by_cases e0 : acc.length = 0
    · rw [if_pos e0]
      exact List.length_replicate _ _
    · have hne : acc ≠ [] := fun h => e0 (by rw [h]; rfl)
      rw [if_neg e0]
      by_cases elt : acc.length < neighbor_samples
      · rw [if_pos elt, List.length_append, (hchoice i r acc _ hne).1]
        omega
      · rw [if_neg elt]
        by_cases egt : neighbor_samples < acc.length
        · rw [if_pos egt]
          exact (hchoice i r acc _ hne).1
        · rw [if_neg egt]
          omega
  · intro h0
    rw [hcell]
    unfold reconcile
    rw [if_pos (by rw [h0]; rfl)]
  · intro hne hlt
    refine ⟨choice i r acc (neighbor_samples - acc.length), ?_, ?_⟩
    · rw [hcell]
      unfold reconcile
      rw [if_neg (fun h => hne (List.length_eq_zero.mp h)), if_pos hlt]
    · exact (hchoice i r acc _ hne).2
  · intro heq
    rw [hcell]
    unfold reconcile
    rw [if_neg (by omega), if_neg (by omega), if_neg (by omega)]
  · intro hgt x hx
    rw [hcell] at hx
    unfold reconcile at hx
    rw [if_neg (by omega), if_neg (by omega), if_pos hgt] at hx
    have hne : acc ≠ [] := fun h => by
      rw [h] at hgt
      simp at hgt
    exact (hchoice i r acc _ hne).2 x hx

/-- Claim C10: a raw self-loop edge `(x,x)` with `vocab x = i` appends `i`
twice to the accumulating candidate list of node `i`; a node whose only
type-`r` incidences are the two endpoints of one self-loop reaches
reconciliation with the two-entry list `[i, i]`, and its final cell is
`neighborSamples` copies of its own index. -/
theorem claim_C10_self_loop_double (choice : ℕ → ℕ → List ℕ → ℕ → List ℕ)
    (network_data : String → List (String × String)) (vocab : String → ℕ)
    (num_nodes : ℕ) (edge_types : List String) (neighbor_samples : ℕ)
    (i r : ℕ)
    (hns : 1 ≤ neighbor_samples)
    (hchoice : ∀ (a b : ℕ) (l : List ℕ) (k : ℕ), l ≠ [] →
      (choice a b l k).length = k ∧ ∀ x ∈ choice a b l k, x ∈ l)
    (hi : i < num_nodes) (hr : r < edge_types.length)
    (hcount1 : (network_data (edge_types.getD r "")).countP
      (fun e => i == vocab e.1) = 1)
    (hcount2 : (network_data (edge_types.getD r "")).countP
      (fun e => i == vocab e.2) = 1)
    (hself : ∀ e ∈ network_data (edge_types.getD r ""),
      vocab e.1 = i ∨ vocab e.2 = i → vocab e.1 = i ∧ vocab e.2 = i) :
    (∀ (g : List (String × String)) (x : String), vocab x = i →
      accumulateNeighbors vocab (g ++ [(x, x)]) i
        = accumulateNeighbors vocab g i ++ [i, i]) ∧
    accumulateNeighbors vocab (network_data (edge_types.getD r "")) i = [i, i] ∧
    ((generate_neighbors choice network_data vocab num_nodes edge_types
        neighbor_samples).getD i []).getD r [] = List.replicate neighbor_samples i := by
  have hcell := generate_neighbors_cell choice network_data vocab num_nodes edge_types
    neighbor_samples hi hr
  set g0 := network_data (edge_types.getD r "") with hg0
  have haccEq : accumulateNeighbors vocab g0 i = [i, i] := by
    have hlen : (accumulateNeighbors vocab g0 i).length = 2 := by
      rw [accumulateNeighbors_length, hcount1, hcount2]
    have hmem : ∀ b ∈ accumulateNeighbors vocab g0 i, b = i := by
      intro b hb
      by_contra hne
      have hpos : 0 < (accumulateNeighbors vocab g0 i).count b :=
        List.count_pos_iff.mpr hb
      rw [accumulateNeighbors_count] at hpos
      have z1 : g0.countP (fun e => i == vocab e.1 && b == vocab e.2) = 0 := by
        rw [List.countP_eq_zero]
        intro e he
        simp only [Bool.and_eq_true, beq_iff_eq, not_and]
        intro h1 h2
        exact hne (by rw [h2, (hself e he (Or.inl h1.symm)).2])
      have z2 : g0.countP (fun e => i == vocab e.2 && b == vocab e.1) = 0 := by
        rw [List.countP_eq_zero]
        intro e he
        simp only [Bool.and_eq_true, beq_iff_eq, not_and]
        intro h1 h2
        exact hne (by rw [h2, (hself e he (Or.inr h1.symm)).1])
      rw [z1, z2] at hpos
      omega
    have := List.eq_replicate_iff.mpr ⟨hlen, hmem⟩
    simpa using this
  refine ⟨?_, haccEq, ?_⟩
  · intro g x hx
    unfold accumulateNeighbors
    rw [List.foldl_append, List.foldl_cons, List.foldl_nil]
    simp only [neighborStep]
    rw [hx]
    simp
  · rw [hcell, haccEq]
    rcases lt_trichotomy neighbor_samples 2 with h | h | h
    · have hns1 : neighbor_samples = 1 := by omega
      subst hns1
      unfold reconcile
      rw [if_neg (by simp), if_neg (by simp), if_pos (by simp)]
      have hch := hchoice i r [i, i] 1 (by simp)
      refine List.eq_replicate_iff.mpr ⟨hch.1, fun b hb => ?_⟩
      have := hch.2 b hb
      simpa using this
    · subst h
      unfold reconcile
      rw [if_neg (by simp), if_neg (by simp), if_neg (by simp)]
      rfl
    · unfold reconcile
      rw [if_neg (by simp), if_pos (by simp [h]), List.length_cons, List.length_cons,
        List.length_nil]
      have hch := hchoice i r [i, i] (neighbor_samples - 2) (by simp)
      refine List.eq_replicate_iff.mpr ⟨?_, fun b hb => ?_⟩
      · rw [List.length_append, hch.1]
        simp
        omega
      · rcases List.mem_append.mp hb with hb | hb
        · simpa using hb
        · have := hch.2 b hb
          simpa using this

/-- Concrete witness for claim C3: two nodes joined by one edge of one type,
`neighborSamples = 3`; the oracle repeats the head of the candidate list;
every cell of the resulting table has exactly 3 entries. -/
theorem claim_C3_witness :
    (1 ≤ 3 ∧
      (∀ (a b : ℕ) (l : List ℕ) (k : ℕ), l ≠ [] →
        ((fun (_ _ : ℕ) (l : List ℕ) (k : ℕ) => List.replicate k (l.headD 0)) a b l k).length
            = k ∧
          ∀ x ∈ (fun (_ _ : ℕ) (l : List ℕ) (k : ℕ) => List.replicate k (l.headD 0)) a b l k,
            x ∈ l) ∧
      (∀ t ∈ ["t"], ∀ e ∈ (fun (_ : String) => [("a", "b")]) t,
        (fun s => if s = "a" then 0 else 1) e.1 < 2 ∧
          (fun s => if s = "a" then 0 else 1) e.2 < 2)) ∧
    (((generate_neighbors (fun (_ _ : ℕ) (l : List ℕ) (k : ℕ) => List.replicate k (l.headD 0))
        (fun (_ : String) => [("a", "b")]) (fun s => if s = "a" then 0 else 1)
        2 ["t"] 3).getD 0 []).getD 0 []).length = 3 := by
  have hch : ∀ (a b : ℕ) (l : List ℕ) (k : ℕ), l ≠ [] →
      ((fun (_ _ : ℕ) (l : List ℕ) (k : ℕ) => List.replicate k (l.headD 0)) a b l k).length
          = k ∧
        ∀ x ∈ (fun (_ _ : ℕ) (l : List ℕ) (k : ℕ) => List.replicate k (l.headD 0)) a b l k,
          x ∈ l := by
    intro a b l k hl
    refine ⟨List.length_replicate _ _, fun x hx => ?_⟩
    rw [List.eq_of_mem_replicate hx]
    cases l with
    | nil => exact absurd rfl hl
    | cons y ys => simp
  exact ⟨⟨by omega, hch, by decide⟩,
    (claim_C3_neighbor_table _ _ _ 2 ["t"] 3 (by omega) hch (by decide) 0 0
      (by omega) (by simp)).2.1⟩

/-- Concrete witness for claim C10: one node with a single self-loop edge of
one type; the accumulated list is `[0, 0]` and the final cell is three copies
of the node's own index. -/
theorem claim_C10_witness :
    (1 ≤ 3 ∧
      (∀ (a b : ℕ) (l : List ℕ) (k : ℕ), l ≠ [] →
        ((fun (_ _ : ℕ) (l : List ℕ) (k : ℕ) => List.replicate k (l.headD 0)) a b l k).length
            = k ∧
          ∀ x ∈ (fun (_ _ : ℕ) (l : List ℕ) (k : ℕ) => List.replicate k (l.headD 0)) a b l k,
            x ∈ l)) ∧
    accumulateNeighbors (fun (_ : String) => 0) [("a", "a")] 0 = [0, 0] ∧
    ((generate_neighbors (fun (_ _ : ℕ) (l : List ℕ) (k : ℕ) => List.replicate k (l.headD 0))
        (fun (_ : String) => [("a", "a")]) (fun (_ : String) => 0)
        1 ["t"] 3).getD 0 []).getD 0 [] = List.replicate 3 0 := by
  have hch : ∀ (a b : ℕ) (l : List ℕ) (k : ℕ), l ≠ [] →
      ((fun (_ _ : ℕ) (l : List ℕ) (k : ℕ) => List.replicate k (l.headD 0)) a b l k).length
          = k ∧
        ∀ x ∈ (fun (_ _ : ℕ) (l : List ℕ) (k : ℕ) => List.replicate k (l.headD 0)) a b l k,
          x ∈ l := by
    intro a b l k hl
    refine ⟨List.length_replicate _ _, fun x hx => ?_⟩
    rw [List.eq_of_mem_replicate hx]
    cases l with
    | nil => exact absurd rfl hl
    | cons y ys => simp
  have main := claim_C10_self_loop_double
    (fun (_ _ : ℕ) (l : List ℕ) (k : ℕ) => List.replicate k (l.headD 0))
    (fun (_ : String) => [("a", "a")]) (fun (_ : String) => 0) 1 ["t"] 3 0 0
    (by omega) hch (by omega) (by simp) (by decide) (by decide) (by decide)
  exact ⟨⟨by omega, hch⟩, main.2.1, main.2.2⟩

theorem digitToChar_spec (d : ℕ) (h : d < 10) :
    (digitToChar d).isDigit = true ∧ (digitToChar d).toNat - 48 = d ∧
      (digitToChar d).isWhitespace = false := by
  interval_cases d <;> exact ⟨by decide, by decide, by decide⟩

theorem natToStr_ne_nil (n : ℕ) : natToStr n ≠ [] := by
  unfold natToStr
  split
  · simp
  · rename_i h
    simp [Nat.digits_ne_nil_iff_ne_zero.mpr h]

theorem natToStr_all_digit (n : ℕ) : ∀ c ∈ natToStr n, c.isDigit = true := by
  unfold natToStr
  split
  · intro c hc
    simp only [List.mem_singleton] at hc
    subst hc
    decide
  · intro c hc
    simp only [List.mem_map, List.mem_reverse] at hc
    obtain ⟨d, hd, rfl⟩ := hc
    exact (digitToChar_spec d (Nat.digits_lt_base (by norm_num) hd)).1

theorem natToStr_no_ws (n : ℕ) : ∀ c ∈ natToStr n, c.isWhitespace = false := by
  unfold natToStr
  split
  · intro c hc
    simp only [List.mem_singleton] at hc
    subst hc
    decide
  · intro c hc
    simp only [List.mem_map, List.mem_reverse] at hc
    obtain ⟨d, hd, rfl⟩ := hc
    exact (digitToChar_spec d (Nat.digits_lt_base (by norm_num) hd)).2.2

theorem strToNat_natToStr (n : ℕ) : strToNat (natToStr n) = some n := by
  by_cases h0 : n = 0
  · subst h0
    decide
  · unfold strToNat
    rw [if_pos ⟨natToStr_ne_nil n, List.all_eq_true.mpr (natToStr_all_digit n)⟩]
    congr 1
    unfold natToStr
    rw [if_neg h0, List.map_map]
    have hmap : (Nat.digits 10 n).reverse.map ((fun c => c.toNat - 48) ∘ digitToChar)
        = (Nat.digits 10 n).reverse.map id := by
      apply List.map_congr_left
      intro d hd
      rw [List.mem_reverse] at hd
      simp only [Function.comp_apply, id]
      exact (digitToChar_spec d (Nat.digits_lt_base (by norm_num) hd)).2.1
    rw [hmap, List.map_id, List.reverse_reverse, Nat.ofDigits_digits]

theorem joinSp_cons_cons (a b : List Char) (ts : List (List Char)) :
    joinSp (a :: b :: ts) = a ++ ' ' :: joinSp (b :: ts) := by
  simp [joinSp, List.intercalate, List.intersperse_cons₂]

theorem splitWs_joinSp (ts : List (List Char))
    (h : ∀ t ∈ ts, t ≠ [] ∧ ∀ c ∈ t, c.isWhitespace = false) :
    splitWs (joinSp ts) = ts := by
  induction ts with
  | nil => rfl
  | cons t ts ih =>
      cases ts with
      | nil =>
          have ht := h t (List.mem_cons_self t [])
          show splitWs (joinSp [t]) = [t]
          have hj : joinSp [t] = t := by
            simp [joinSp, List.intercalate]
          rw [hj]
          unfold splitWs
          rw [List.splitOnP_eq_single _ _ (by
            intro c hc
            simp [ht.2 c hc])]
          simp [ht.1]
      | cons t2 ts2 =>
          have ht := h t (List.mem_cons_self t _)
          rw [joinSp_cons_cons]
          unfold splitWs
          rw [List.splitOnP_first _ _ (by
              intro c hc
              simp [ht.2 c hc]) ' ' (by decide)]
          rw [List.filter_cons_of_pos (by simpa using ht.1)]
          have := ih (fun t' ht' => h t' (List.mem_cons_of_mem _ ht'))
          unfold splitWs at this
          rw [this]

theorem string_mk_data (s : String) : String.mk s.data = s := rfl

theorem string_ne_empty_iff_data (t : String) : t ≠ "" ↔ t.data ≠ [] := by
  constructor
  · intro h hd
    exact h (by rw [← string_mk_data t, hd])
  · intro h he
    exact h (by rw [he])

theorem pySplit_renderLine (k : ℕ) (walk : List String)
    (h : ∀ t ∈ walk, t ≠ "" ∧ ∀ c ∈ t.data, c.isWhitespace = false) :
    pySplit (renderLine k walk) = String.mk (natToStr k) :: walk := by
  unfold pySplit renderLine
  rw [show (String.mk (joinSp (natToStr k :: walk.map String.data))).data
      = joinSp (natToStr k :: walk.map String.data) from rfl]
  rw [splitWs_joinSp _ (by
    intro t ht
    rcases List.mem_cons.mp ht with rfl | ht
    · exact ⟨natToStr_ne_nil k, natToStr_no_ws k⟩
    · simp only [List.mem_map] at ht
      obtain ⟨s, hs, rfl⟩ := ht
      exact ⟨(string_ne_empty_iff_data s).mp (h s hs).1, (h s hs).2⟩)]
  rw [List.map_cons, List.map_map]
  congr 1
  have : (String.mk ∘ String.data) = id := by
    funext s
    exact string_mk_data s
  rw [this, List.map_id]

theorem getD_append_length {α : Type} (acc : List α) (x d : α) :
    (acc ++ [x]).getD acc.length d = x := by
  induction acc with
  | nil => rfl
  | cons a as ih => simp [ih]

theorem set_append_length {α : Type} (acc : List α) (x y : α) :
    (acc ++ [x]).set acc.length y = acc ++ [y] := by
  induction acc with
  | nil => rfl
  | cons a as ih => simp [ih]

theorem loadLine_render (acc : List (List (List String))) (k : ℕ)
    (w : List String)
    (hw : ∀ t ∈ w, t ≠ "" ∧ ∀ c ∈ t.data, c.isWhitespace = false) :
    loadLine (some acc) (renderLine k w)
      = (if k < (if acc.length ≤ k then acc ++ [[]] else acc).length then
          some ((if acc.length ≤ k then acc ++ [[]] else acc).set k
            ((if acc.length ≤ k then acc ++ [[]] else acc).getD k [] ++ [w]))
        else none) := by
  unfold loadLine
  rw [pySplit_renderLine k w hw]
  simp only [string_mk_data]
  rw [strToNat_natToStr]

theorem load_block_cons (acc : List (List (List String))) :
    ∀ (walks : List (List String)) (cur : List (List String)) (rest : List String),
      (∀ w ∈ walks, ∀ t ∈ w, t ≠ "" ∧ ∀ c ∈ t.data, c.isWhitespace = false) →
      List.foldl loadLine (some (acc ++ [cur]))
          (walks.map (renderLine acc.length) ++ rest)
        = List.foldl loadLine (some (acc ++ [cur ++ walks])) rest := by
  intro walks
  induction walks with
  | nil =>
      intro cur rest _
      simp
  | cons w ws ih =>
      intro cur rest hw
      simp only [List.map_cons, List.cons_append, List.foldl_cons]
      have hline : loadLine (some (acc ++ [cur])) (renderLine acc.length w)
          = some (acc ++ [cur ++ [w]]) := by
        have hc1 : ¬ ((acc ++ [cur]).length ≤ acc.length) := by
          simp only [List.length_append, List.length_cons, List.length_nil]
          omega
        have hc2 : acc.length < (acc ++ [cur]).length := by
          simp only [List.length_append, List.length_cons, List.length_nil]
          omega
        rw [loadLine_render _ _ _ (hw w (List.mem_cons_self _ _)), if_neg hc1,
          if_pos hc2, getD_append_length, set_append_length]
      rw [hline]
      have := ih (cur ++ [w]) rest (fun w' hw' => hw w' (List.mem_cons_of_mem _ hw'))
      rw [List.append_assoc, List.singleton_append] at this
      exact this

theorem load_blockLines (aw : List (List (List String))) :
    ∀ acc : List (List (List String)),
      (∀ walks ∈ aw, walks ≠ []) →
      (∀ walks ∈ aw, ∀ w ∈ walks, ∀ t ∈ w, t ≠ "" ∧ ∀ c ∈ t.data,
        c.isWhitespace = false) →
      List.foldl loadLine (some acc) (blockLinesFrom acc.length aw)
        = some (acc ++ aw) := by
  induction aw with
  | nil =>
      intro acc _ _
      simp [blockLinesFrom]
  | cons walks rest ih =>
      intro acc hne htok
      obtain ⟨w, ws, rfl⟩ : ∃ w ws, walks = w :: ws := by
        cases walks with
        | nil => exact absurd rfl (hne [] (List.mem_cons_self _ _))
        | cons w ws => exact ⟨w, ws, rfl⟩
      rw [blockLinesFrom]
      simp only [List.map_cons, List.cons_append, List.foldl_cons]
      have hline1 : loadLine (some acc) (renderLine acc.length w)
          = some (acc ++ [[w]]) := by
        have hc1 : acc.length ≤ acc.length := le_refl _
        have hc2 : acc.length < (acc ++ [[]]).length := by
          simp only [List.length_append, List.length_cons, List.length_nil]
          omega
        rw [loadLine_render _ _ _
          (htok _ (List.mem_cons_self _ _) w (List.mem_cons_self _ _)), if_pos hc1,
          if_pos hc2, getD_append_length, set_append_length]
        simp
      rw [hline1]
      have hblock := load_block_cons acc ws [w] (blockLinesFrom (acc.length + 1) rest)
        (fun w' hw' => htok _ (List.mem_cons_self _ _) w' (List.mem_cons_of_mem _ hw'))
      rw [hblock, List.singleton_append]
      have hlen2 : (acc ++ [w :: ws]).length = acc.length + 1 := by simp
      have := ih (acc ++ [w :: ws])
        (fun walks' h' => hne walks' (List.mem_cons_of_mem _ h'))
        (fun walks' h' => htok walks' (List.mem_cons_of_mem _ h'))
      rw [hlen2] at this
      rw [this, List.append_assoc, List.singleton_append]

theorem range_flatMap_blockLines (aw : List (List (List String))) :
    ∀ base : ℕ,
      (List.range aw.length).flatMap
        (fun i => (aw.getD i []).map (renderLine (base + i)))
        = blockLinesFrom base aw := by
  induction aw with
  | nil =>
      intro base
      simp [blockLinesFrom]
  | cons walks rest ih =>
      intro base
      rw [List.length_cons, List.range_succ_eq_map, List.flatMap_cons, List.flatMap_map]
      rw [blockLinesFrom]
      congr 1
      have h2 := ih (base + 1)
      have hsw : ∀ i : ℕ, base + 1 + i = base + (i + 1) := fun i => by omega
      simp only [hsw] at h2
      simp only [List.getD_cons_succ, Nat.succ_eq_add_one]
      exact h2

theorem save_walks_eq_blockLines (aw : List (List (List String))) :
    save_walks aw = blockLinesFrom 0 aw := by
  unfold save_walks
  have := range_flatMap_blockLines aw 0
  simpa using this

/-- Claim C5 counterexample: a walk collection with one empty layer does not
survive the round trip — `save_walks` writes no line for the empty layer, so
`load_walks` returns an empty layer list, not the original structure. -/
theorem claim_C5_counterexample :
    load_walks (save_walks [[]]) = some [] ∧
      load_walks (save_walks [[]]) ≠ some [[]] := by
  constructor
  · rfl
  · decide

/-- Claim C5 (amended): the save/load round trip reproduces the walk
collection exactly, provided every layer contains at least one walk (an
empty layer produces no lines, desynchronising the loader's lazily grown
layer list) and every token is nonempty and whitespace-free (the
space-joined line is re-split on whitespace). -/
theorem claim_C5_save_load_roundtrip (aw : List (List (List String)))
    (hne : ∀ walks ∈ aw, walks ≠ [])
    (htok : ∀ walks ∈ aw, ∀ w ∈ walks, ∀ t ∈ w, t ≠ "" ∧ ∀ c ∈ t.data,
      c.isWhitespace = false) :
    load_walks (save_walks aw) = some aw := by
  unfold load_walks
  rw [save_walks_eq_blockLines]
  have := load_blockLines aw [] hne htok
  simpa using this

/-- Concrete witness for claim C5: a one-layer, one-walk, one-token corpus
satisfies the amended hypotheses and round-trips. -/
theorem claim_C5_witness :
    ((∀ walks ∈ [[["a"]]], walks ≠ ([] : List (List String))) ∧
      (∀ walks ∈ [[["a"]]], ∀ w ∈ walks, ∀ t ∈ w, t ≠ "" ∧ ∀ c ∈ t.data,
        c.isWhitespace = false)) ∧
    load_walks (save_walks [[["a"]]]) = some [[["a"]]] :=
  ⟨⟨by decide, by decide⟩,
    claim_C5_save_load_roundtrip [[["a"]]] (by decide) (by decide)⟩

/-- Claim C7 (code-bug exhibit): a persisted corpus whose layer indices go
out of non-decreasing order — here `0, 1, 0` — does NOT fail the load:
`load_walks` silently appends the walk of the third line to the existing
layer 0 and returns a result containing it. -/
theorem claim_C7_out_of_order_accepted :
    load_walks ["0 a", "1 b", "0 c"] = some [[["a"], ["c"]], [["b"]]] := by
  rfl

end GATNE
